import Mathlib

/-!
Verification development for the `lcd` repository (`lcd.go`).

The development shallowly embeds the two core functions of `lcd.go`:

* `generateDatabase` (lcd.go:212-251), the Indexer: it writes the base
  directory as a header line and then walks the directory tree with
  `filepath.WalkDir`, writing every visited directory path as one line,
  returning `filepath.SkipDir` from the callback on traversal errors and
  for directories named ".git".
* `searchDatabaseOptimized` (lcd.go:254-308), the Resolver: it skips the
  first line of the snapshot, and for each remaining line extracts the
  base name (substring after the last '/'), lowercases it, and keeps the
  shortest exact match and the shortest substring match (strict `<` on
  `len(path)`, so the first line of a given length wins); exact matches
  are preferred at the end, and if neither exists it returns the error
  `"directory not found: " ++ term`.

Modelling conventions:

* The filesystem is a tree of `FSNode` values; a directory carries a
  `readable` flag (false models `os.ReadDir` failing on it) and the root
  of the walk is an `Option FSNode` (`none` models `os.Lstat(root)`
  failing, i.e. a root that does not exist or cannot be accessed).
* Writing to the snapshot file is modelled as emitting a list of lines
  (each Go `WriteString(s + "\n")` emits the line `s`); snapshot-file
  create/write errors are outside the model.  The Resolver accordingly
  consumes the snapshot as the list of its lines, exactly what
  `bufio.Scanner` yields from the file `generateDatabase` writes
  (directory names are assumed newline-free, as on real filesystems).
* Go `string`s are Lean `String`s; `len(path)` is `String.utf8ByteSize`
  (Go `len` counts UTF-8 bytes); `strings.ToLower` is modelled by
  mapping `Char.toLower`, which agrees with Go on ASCII;
  `strings.Contains` is contiguous-sublist containment on characters,
  which for valid UTF-8 agrees with Go's byte-level containment because
  UTF-8 is self-synchronizing; Go's `int` arithmetic appears only as
  the initial best-length sentinel `int(^uint(0) >> 1)` = 2^63 - 1,
  kept as the literal `maxIntGo` over `Nat`.
* `filepath.Join(dir, name)` is modelled by `goJoin`, faithful whenever
  `dir` is a cleaned path possibly followed by a trailing slash and
  `name` is a single directory-entry name (entry names never contain a
  path separator); this covers every `Join` the walk performs.
* `filepath.WalkDir` together with the callback from `generateDatabase`
  is embedded following the control flow of Go's `fs.walkDir`: the
  callback is called once before reading a directory, a second time with
  the error if `ReadDir` fails, a `SkipDir` answer on a directory is
  converted to success, a `SkipDir` bubbling out of a child breaks the
  sibling loop, and a `SkipDir` escaping the root is converted to `nil`
  by `WalkDir` itself.
-/

/-- Characters of the string `".git"`, the one directory name skipped by
`generateDatabase`. -/
def gitChars : List Char := ['.', 'g', 'i', 't']

/-- Models Go `strings.ToLower` (exact on ASCII, where all the engine's
comparisons live): lowercase every character. -/
def goToLower (s : String) : String :=
  String.mk (s.toList.map Char.toLower)

/-- Contiguous-sublist test: does `sub` occur as a contiguous run inside
`l`?  Models the byte search of Go `strings.Contains` at character level. -/
def hasSubList (sub : List Char) : List Char → Bool
  | [] => sub.isEmpty
  | c :: rest => sub.isPrefixOf (c :: rest) || hasSubList sub rest

/-- Models Go `strings.Contains(s, sub)`. -/
def containsSub (s sub : String) : Bool :=
  hasSubList sub.toList s.toList

/-- Characters after the last `'/'` of the list (the whole list when no
`'/'` occurs).  Models `path[strings.LastIndexByte(path, '/')+1:]`. -/
def afterLastSlash : List Char → List Char
  | [] => []
  | c :: cs => if '/' ∈ cs then afterLastSlash cs else if c = '/' then cs else c :: cs

/-- Base name of a path as computed at lcd.go:275-279: the substring
after the last `'/'`, or the whole path if it has no `'/'`. -/
def baseNameOf (path : String) : String :=
  String.mk (afterLastSlash path.toList)

/-- Split a character list at every `'/'`; the path components of a path
string (empty components included). -/
def splitSlash : List Char → List (List Char)
  | [] => [[]]
  | c :: cs =>
    let r := splitSlash cs
    if c = '/' then [] :: r else (c :: r.headD []) :: r.tail

/-- Does the last character of the string exist and equal `'/'`? -/
def endsWithSlash (s : String) : Bool :=
  match s.toList.getLast? with
  | some c => c = '/'
  | none => false

/-- Models `filepath.Join(dir, name)` for a cleaned `dir` (possibly with
one trailing slash) and a slash-free entry `name`, the only shape of
`Join` performed by the walk. -/
def goJoin (dir name : String) : String :=
  if endsWithSlash dir then dir ++ name else dir ++ "/" ++ name

/-- The non-nil error values relevant to the walk: `filepath.SkipDir`,
plus a catch-all for any other error an `fs.WalkDirFunc` could return
(the embedded callback never produces one, but the engine's propagation
logic distinguishes the two). -/
inductive WErr : Type where
  | skipDir : WErr
  | ioErr : String → WErr
deriving DecidableEq, Repr

/-- The fragment of `fs.DirEntry` the callback consults: `Name()` and
`IsDir()`. -/
structure DirEntry where
  name : String
  isDir : Bool
deriving DecidableEq, Repr

mutual
/-- A filesystem tree.  A directory's `readable` flag is false when
`os.ReadDir` would fail on it (permission denied and similar). -/
inductive FSNode : Type where
  | file (name : String) : FSNode
  | dir (name : String) (readable : Bool) (children : FSList) : FSNode
/-- A list of sibling filesystem entries (a mutual inductive rather than
`List FSNode`, so that all recursion over trees is structural). -/
inductive FSList : Type where
  | nil : FSList
  | cons (head : FSNode) (tail : FSList) : FSList
end

/-- `Name()` of a node. -/
def nameN : FSNode → String
  | .file n => n
  | .dir n _ _ => n

/-- `IsDir()` of a node. -/
def isDirN : FSNode → Bool
  | .file _ => false
  | .dir _ _ _ => true

/-- The `fs.WalkDirFunc` closure of `generateDatabase` (lcd.go:225-245):
on a non-nil incoming error answer `SkipDir`; skip directories named
".git" with `SkipDir`; for any other directory emit its path as a line;
otherwise do nothing.  Returns the lines written and the callback's
answer (`none` = Go `nil`). -/
def walkFnGen (path : String) (d : Option DirEntry) (hasErr : Bool) :
    List String × Option WErr :=
  if hasErr then ([], some WErr.skipDir)
  else
    match d with
    | none => ([], none)
    | some d =>
      if d.isDir && d.name == ".git" then ([], some WErr.skipDir)
      else if d.isDir then ([path], none)
      else ([], none)

mutual
/-- The recursive engine of `filepath.WalkDir` (Go `fs.walkDir`)
specialized to the callback above.  `walkNode path n` walks the entry
`n` located at `path`: call the callback; on a non-nil answer (or a
non-directory) return it, turning `SkipDir` on a directory into
success; otherwise read the directory -- on failure report the error to
the callback a second time and handle its answer the same way -- and
walk the children. -/
def walkNode (path : String) (n : FSNode) : List String × Option WErr :=
  match n with
  | .file name =>
    match walkFnGen path (some ⟨name, false⟩) false with
    | (out, e) => (out, e)
  | .dir name rb children =>
    match walkFnGen path (some ⟨name, true⟩) false with
    | (out1, some e) => (out1, if e = WErr.skipDir then none else some e)
    | (out1, none) =>
      if rb then
        match walkList path children with
        | (out2, e2) => (out1 ++ out2, e2)
      else
        match walkFnGen path (some ⟨name, true⟩) true with
        | (out2, some e) => (out1 ++ out2, if e = WErr.skipDir then none else some e)
        | (out2, none) => (out1 ++ out2, none)
/-- The sibling loop of Go `fs.walkDir`: walk each child in turn; a
child error equal to `SkipDir` breaks the loop (and the loop returns
success), any other child error is returned. -/
def walkList (path : String) (cs : FSList) : List String × Option WErr :=
  match cs with
  | .nil => ([], none)
  | .cons c rest =>
    match walkNode (goJoin path (nameN c)) c with
    | (out, some WErr.skipDir) => (out, none)
    | (out, some e) => (out, some e)
    | (out, none) =>
      match walkList path rest with
      | (out2, e2) => (out ++ out2, e2)
end

/-- `filepath.WalkDir(root, fn)`: if `os.Lstat(root)` fails (`fsroot =
none`) the callback is invoked once with the error and no entry;
otherwise the tree is walked from the root entry itself.  A resulting
`SkipDir` (or `SkipAll`) is converted to `nil`. -/
def goWalkDir (root : String) (fsroot : Option FSNode) : List String × Option WErr :=
  match fsroot with
  | none =>
    match walkFnGen root none true with
    | (out, some WErr.skipDir) => (out, none)
    | (out, e) => (out, e)
  | some n =>
    match walkNode root n with
    | (out, some WErr.skipDir) => (out, none)
    | (out, e) => (out, e)

/-- `generateDatabase` (lcd.go:212-251) with the snapshot file modelled
as the list of lines written: first the header line `baseDir`, then one
line per directory visited by the walk.  The second component is the
error `generateDatabase` returns (`none` = success; snapshot-file
create/write errors are outside the model, so the only possible error
source is the walk). -/
def generateDatabase (baseDir : String) (fsroot : Option FSNode) :
    List String × Option WErr :=
  match goWalkDir baseDir fsroot with
  | (out, e) => (baseDir :: out, e)

/-- Go's largest `int`, `int(^uint(0) >> 1)` on a 64-bit platform: the
initial value of `bestExactLen` and `bestPartialLen` (lcd.go:269-270). -/
def maxIntGo : Nat := 9223372036854775807

/-- The loop state of `searchDatabaseOptimized` (lcd.go:266-270). -/
structure SearchState where
  bestExact : String
  bestPartial : String
  bestExactLen : Nat
  bestPartialLen : Nat
deriving DecidableEq, Repr

/-- One iteration of the scan loop of `searchDatabaseOptimized`
(lcd.go:272-298) on the line `path`: extract the base name, lowercase
it; if it equals `termLower` record the path when strictly shorter than
the best exact candidate so far (then `continue`); otherwise, if it
contains `termLower`, record the path when strictly shorter than the
best substring candidate so far. -/
def searchStep (termLower : String) (st : SearchState) (path : String) : SearchState :=
  let name := baseNameOf path
  let nameLower := goToLower name
  let pathLen := path.utf8ByteSize
  if nameLower = termLower then
    if pathLen < st.bestExactLen then
      { st with bestExact := path, bestExactLen := pathLen }
    else st
  else if containsSub nameLower termLower then
    if pathLen < st.bestPartialLen then
      { st with bestPartial := path, bestPartialLen := pathLen }
    else st
  else st

/-- `searchDatabaseOptimized` (lcd.go:254-308) with the snapshot file
modelled as its list of lines: the first `scanner.Scan()` discards the
header line, the loop runs over the remaining lines, and at the end a
non-empty `bestExact` wins, else a non-empty `bestPartial`, else the
error `"directory not found: <term>"`.  (The `os.Open` failure path,
which returns a "could not open database" error, is outside the model:
the snapshot is given by its contents.) -/
def searchDatabaseOptimized (lines : List String) (term : String) :
    Except String String :=
  let termLower := goToLower term
  let st := (lines.drop 1).foldl (searchStep termLower)
    { bestExact := "", bestPartial := "", bestExactLen := maxIntGo, bestPartialLen := maxIntGo }
  if st.bestExact ≠ "" then Except.ok st.bestExact
  else if st.bestPartial ≠ "" then Except.ok st.bestPartial
  else Except.error ("directory not found: " ++ term)

/-- Spec-side predicate, from spec section 4.2 step 2: the body line is
an **exact candidate** for `termLower` when its lowercased base name
equals it (`termLower` is the already-lowercased term). -/
def exactCand (termLower line : String) : Bool :=
  goToLower (baseNameOf line) == termLower

/-- Spec-side predicate, from spec section 4.2 step 3: the body line is
a **partial candidate** for `termLower` when it is not an exact
candidate and its lowercased base name contains `termLower` as a
substring. -/
def partCand (termLower line : String) : Bool :=
  !(exactCand termLower line) && containsSub (goToLower (baseNameOf line)) termLower

/-- Spec-side choice, from spec section 4.2 step 4: keep the shorter of
the candidate so far and the new candidate, strict `<` on total
path-string length, so the earlier candidate wins ties. -/
def pickShorter (acc : Option String) (l : String) : Option String :=
  match acc with
  | none => some l
  | some b => if l.utf8ByteSize < b.utf8ByteSize then some l else some b

/-- Spec-side "best candidate of a tier": the candidate of shortest
total path-string length, ties broken by first-seen order. -/
def chooseBest (ls : List String) : Option String :=
  ls.foldl pickShorter none

/-- Spec-side resolver, assembled from the words of spec section 4.2:
drop the header, form the two candidate tiers in snapshot order, return
the best exact candidate if the exact tier is non-empty, else the best
partial candidate if that tier is non-empty, else a NotFound error
carrying the original term. -/
def resolveSpec (lines : List String) (term : String) : Except String String :=
  let termLower := goToLower term
  let body := lines.drop 1
  match chooseBest (body.filter (exactCand termLower)) with
  | some b => Except.ok b
  | none =>
    match chooseBest (body.filter (partCand termLower)) with
    | some b => Except.ok b
    | none => Except.error ("directory not found: " ++ term)

/-- `r` is the best of the list `ls` in the sense of spec section 4.2
step 4: `ls` splits around an occurrence of `r` such that everything
seen before `r` is strictly longer and everything seen after is at
least as long (shortest total path-string length wins, first-seen wins
ties). -/
def IsBest (ls : List String) (r : String) : Prop :=
  ∃ pre post, ls = pre ++ r :: post ∧
    (∀ l ∈ pre, r.utf8ByteSize < l.utf8ByteSize) ∧
    (∀ l ∈ post, r.utf8ByteSize ≤ l.utf8ByteSize)

/-- The body of the Go loop, acting on one tier's pair (best path so
far, best length so far), exactly the two `if pathLen < best...Len`
updates of lcd.go:285-296. -/
def updBest (bp : String × Nat) (ls : List String) : String × Nat :=
  ls.foldl (fun bp l => if l.utf8ByteSize < bp.2 then (l, l.utf8ByteSize) else bp) bp

/-- The correspondence between Go's sentinel representation of "no
candidate yet" (`best = ""`, `bestLen = maxIntGo`) and the spec-side
`Option String`: either both say "none yet", or both hold the same
candidate together with its length. -/
def relOpt (bp : String × Nat) (o : Option String) : Prop :=
  (o = none ∧ bp = ("", maxIntGo)) ∨ (∃ s, o = some s ∧ bp = (s, s.utf8ByteSize))

mutual
/-- The list of directory paths the walk writes below (and including)
the entry `n` at `path`, read off from the specialized engine: files
contribute nothing; a directory named ".git" contributes nothing
(subtree skipped); any other directory contributes its own path,
followed by its children's contributions when it is readable (an
unreadable directory is still listed itself, since the callback runs
before `ReadDir` fails). -/
def allowedPaths (path : String) (n : FSNode) : List String :=
  match n with
  | .file _ => []
  | .dir name rb children =>
    if name = ".git" then []
    else path :: (if rb then allowedChildren path children else [])
/-- Concatenated contributions of a sibling list, in order. -/
def allowedChildren (path : String) (cs : FSList) : List String :=
  match cs with
  | .nil => []
  | .cons c rest => allowedPaths (goJoin path (nameN c)) c ++ allowedChildren path rest
end

/-- A sibling list containing no subdirectory (files only). -/
def noDirChild : FSList → Bool
  | .nil => true
  | .cons c rest => !(isDirN c) && noDirChild rest

/-- A directory-entry name with no path separator in it (every name a
real filesystem can produce). -/
def noSlash (s : String) : Bool := decide ('/' ∉ s.toList)

mutual
/-- All entry names in the tree are separator-free. -/
def cleanN : FSNode → Bool
  | .file nm => noSlash nm
  | .dir nm _ cs => noSlash nm && cleanL cs
/-- All entry names in the sibling list's trees are separator-free. -/
def cleanL : FSList → Bool
  | .nil => true
  | .cons c rest => cleanN c && cleanL rest
end

/-- Membership of an entry in a sibling list. -/
inductive MemF : FSNode → FSList → Prop where
  | head (c : FSNode) (t : FSList) : MemF c (FSList.cons c t)
  | tail {c h : FSNode} {t : FSList} : MemF c t → MemF c (FSList.cons h t)

/-- `DirAt n chain m`: starting from the entry `n`, following the child
named by each element of `chain` in turn through *readable* directories
reaches the entry `m` (spec completeness only promises entries whose
ancestors could be read). -/
inductive DirAt : FSNode → List String → FSNode → Prop where
  | here (n : FSNode) : DirAt n [] n
  | step {nm : String} {cs : FSList} {c m : FSNode} {chain : List String} :
      MemF c cs → DirAt c chain m →
      DirAt (FSNode.dir nm true cs) (nameN c :: chain) m

/-- The path of the entry reached by following `chain` from `path`:
fold `filepath.Join` over the chain. -/
def joinChain (path : String) (chain : List String) : String :=
  chain.foldl goJoin path

/-- The tree of the spec's skip-policy example: a root `a` containing
`.git/objects` and a hidden directory `.hidden`. -/
def gitExampleTree : FSNode :=
  FSNode.dir "a" true
    (FSList.cons
      (FSNode.dir ".git" true (FSList.cons (FSNode.dir "objects" true FSList.nil) FSList.nil))
      (FSList.cons (FSNode.dir ".hidden" true FSList.nil) FSList.nil))

-- Sanity checks of the string layer.
example : baseNameOf "/a/foo" = "foo" := by decide

example : baseNameOf "abc" = "abc" := by decide

example : baseNameOf "/a/" = "" := by decide

example : baseNameOf "" = "" := by decide

example : splitSlash ("/a/.git/x".toList) = [[], ['a'], gitChars, ['x']] := by decide

example : goJoin "/a" "b" = "/a/b" := by decide

example : goJoin "/" "b" = "/b" := by decide

example : containsSub "myprojectfolder" "proj" = true := by decide

example : containsSub "abc" "zz" = false := by decide

example : goToLower "PROJ" = "proj" := by decide

-- Sanity checks of the walk.
example :
    generateDatabase "/r" (some (FSNode.dir "r" true FSList.nil)) = (["/r", "/r"], none) := by
  decide

example : generateDatabase "/r" none = (["/r"], none) := by decide

example :
    generateDatabase "/a"
      (some (FSNode.dir "a" true
        (FSList.cons (FSNode.dir ".git" true (FSList.cons (FSNode.dir "objects" true FSList.nil) FSList.nil))
          (FSList.cons (FSNode.dir ".hidden" true FSList.nil) FSList.nil)))) =
    (["/a", "/a", "/a/.hidden"], none) := by decide

example :
    generateDatabase "/a"
      (some (FSNode.dir "a" true
        (FSList.cons (FSNode.dir "locked" false (FSList.cons (FSNode.dir "x" true FSList.nil) FSList.nil))
          (FSList.cons (FSNode.file "f.txt") FSList.nil)))) =
    (["/a", "/a", "/a/locked"], none) := by decide

-- Sanity checks of the resolver, mirroring spec section 8.
example : searchDatabaseOptimized ["/", "/a/foo", "/a/foobar"] "foo" = Except.ok "/a/foo" := rfl

example : searchDatabaseOptimized ["/", "/a/x/proj", "/proj"] "proj" = Except.ok "/proj" := rfl

example : searchDatabaseOptimized ["/", "/a/proj"] "PROJ" = Except.ok "/a/proj" := rfl

example : searchDatabaseOptimized ["/", "/a/myprojectfolder"] "proj" =
    Except.ok "/a/myprojectfolder" := rfl

example : searchDatabaseOptimized ["/", "/a/b"] "zzz-nonexistent" =
    Except.error "directory not found: zzz-nonexistent" := rfl

example : searchDatabaseOptimized [] "x" = Except.error "directory not found: x" := rfl

lemma isPrefixOf_self (l : List Char) : l.isPrefixOf l = true := by
  induction l with
  | nil => rfl
  | cons c cs ih => simp [List.isPrefixOf, ih]

lemma hasSubList_self (l : List Char) : hasSubList l l = true := by
  cases l with
  | nil => rfl
  | cons c cs => simp [hasSubList, isPrefixOf_self]

lemma hasSubList_append_right (p t : List Char) : hasSubList t (p ++ t) = true := by
  induction p with
  | nil => exact hasSubList_self t
  | cons c cs ih => simp [hasSubList, ih]

lemma containsSub_self (s : String) : containsSub s s = true :=
  hasSubList_self s.toList

lemma containsSub_append_right (p t : String) : containsSub (p ++ t) t = true := by
  have h : (p ++ t).toList = p.toList ++ t.toList := String.data_append p t
  simp only [containsSub, h]
  exact hasSubList_append_right p.toList t.toList

lemma data_nil_iff (s : String) : s.data = [] ↔ s = "" := by
  constructor
  · intro h
    exact String.ext h
  · intro h
    subst h
    rfl

lemma goToLower_empty_iff (s : String) : goToLower s = "" ↔ s = "" := by
  constructor
  · intro h
    have hd : (s.toList.map Char.toLower) = [] := congrArg String.data h
    have : s.data = [] := List.map_eq_nil_iff.mp hd
    exact (data_nil_iff s).mp this
  · intro h
    subst h
    rfl

lemma exactCand_contains {tl l : String} (h : exactCand tl l = true) :
    containsSub (goToLower (baseNameOf l)) tl = true := by
  have he : goToLower (baseNameOf l) = tl := by
    simpa [exactCand] using h
  rw [he]
  exact containsSub_self tl

lemma cand_contains {tl l : String}
    (h : exactCand tl l = true ∨ partCand tl l = true) :
    containsSub (goToLower (baseNameOf l)) tl = true := by
  rcases h with h | h
  · exact exactCand_contains h
  · have := (Bool.and_eq_true _ _).mp h
    exact this.2

lemma cand_ne_empty {term l : String} (hterm : term ≠ "")
    (h : exactCand (goToLower term) l = true ∨ partCand (goToLower term) l = true) :
    l ≠ "" := by
  intro hl
  subst hl
  have htl : goToLower term ≠ "" := fun he => hterm ((goToLower_empty_iff term).mp he)
  have hc : containsSub (goToLower (baseNameOf "")) (goToLower term) = true := cand_contains h
  have hb : baseNameOf "" = "" := rfl
  rw [hb] at hc
  have hg : goToLower "" = "" := rfl
  rw [hg] at hc
  have : (goToLower term).toList.isEmpty = true := hc
  have : (goToLower term).data = [] := by
    simpa [List.isEmpty_iff] using this
  exact htl ((data_nil_iff _).mp this)

lemma foldl_searchStep_split (tl : String) (ls : List String) (st : SearchState) :
    ls.foldl (searchStep tl) st =
      ⟨(updBest (st.bestExact, st.bestExactLen) (ls.filter (exactCand tl))).1,
       (updBest (st.bestPartial, st.bestPartialLen) (ls.filter (partCand tl))).1,
       (updBest (st.bestExact, st.bestExactLen) (ls.filter (exactCand tl))).2,
       (updBest (st.bestPartial, st.bestPartialLen) (ls.filter (partCand tl))).2⟩ := by
  induction ls generalizing st with
  | nil => rfl
  | cons l rest ih =>
    by_cases hx : goToLower (baseNameOf l) = tl
    · have hex : exactCand tl l = true := by simp [exactCand, hx]
      have hpx : partCand tl l = false := by simp [partCand, hex]
      by_cases hlen : l.utf8ByteSize < st.bestExactLen
      · simp only [List.foldl_cons, List.filter_cons, hex, hpx, if_true,
          Bool.false_eq_true, if_false, searchStep, hx]
        rw [if_pos hlen, ih]
        simp [updBest, hlen]
      · simp only [List.foldl_cons, List.filter_cons, hex, hpx, if_true,
          Bool.false_eq_true, if_false, searchStep, hx]
        rw [if_neg hlen, ih]
        simp [updBest, hlen]
    · have hex : exactCand tl l = false := by
        simp [exactCand, hx]
      by_cases hc : containsSub (goToLower (baseNameOf l)) tl = true
      · have hpx : partCand tl l = true := by simp [partCand, hex, hc]
        by_cases hlen : l.utf8ByteSize < st.bestPartialLen
        · simp only [List.foldl_cons, List.filter_cons, hex, hpx, if_true,
            Bool.false_eq_true, if_false, searchStep]
          rw [if_neg hx, if_pos hc, if_pos hlen, ih]
          simp [updBest, hlen]
        · simp only [List.foldl_cons, List.filter_cons, hex, hpx, if_true,
            Bool.false_eq_true, if_false, searchStep]
          rw [if_neg hx, if_pos hc, if_neg hlen, ih]
          simp [updBest, hlen]
      · have hc' : containsSub (goToLower (baseNameOf l)) tl = false := by
          simpa using hc
        have hpx : partCand tl l = false := by simp [partCand, hc']
        simp only [List.foldl_cons, List.filter_cons, hex, hpx,
          Bool.false_eq_true, if_false, searchStep]
        rw [if_neg hx, if_neg (by simp [hc'] : ¬containsSub (goToLower (baseNameOf l)) tl = true), ih]

lemma updBest_rel (ls : List String) :
    ∀ (bp : String × Nat) (o : Option String), relOpt bp o →
      (∀ l ∈ ls, l.utf8ByteSize < maxIntGo) →
      relOpt (updBest bp ls) (ls.foldl pickShorter o) := by
  induction ls with
  | nil => intro bp o h _; exact h
  | cons l rest ih =>
    intro bp o h hb
    have hl : l.utf8ByteSize < maxIntGo := hb l (List.mem_cons_self l rest)
    have hb' : ∀ x ∈ rest, x.utf8ByteSize < maxIntGo := fun x hx => hb x (List.mem_cons_of_mem l hx)
    rcases h with ⟨ho, hbp⟩ | ⟨s, ho, hbp⟩
    · subst ho; subst hbp
      simp only [updBest, List.foldl_cons, pickShorter]
      rw [if_pos hl]
      exact ih (l, l.utf8ByteSize) (some l) (Or.inr ⟨l, rfl, rfl⟩) hb'
    · subst ho; subst hbp
      simp only [updBest, List.foldl_cons, pickShorter]
      by_cases hc : l.utf8ByteSize < s.utf8ByteSize
      · rw [if_pos hc, if_pos hc]
        exact ih (l, l.utf8ByteSize) (some l) (Or.inr ⟨l, rfl, rfl⟩) hb'
      · rw [if_neg hc, if_neg hc]
        exact ih (s, s.utf8ByteSize) (some s) (Or.inr ⟨s, rfl, rfl⟩) hb'

lemma foldl_pickShorter_some (ls : List String) (a : String) :
    ∃ b, ls.foldl pickShorter (some a) = some b := by
  induction ls generalizing a with
  | nil => exact ⟨a, rfl⟩
  | cons l rest ih =>
    simp only [List.foldl_cons, pickShorter]
    by_cases hc : l.utf8ByteSize < a.utf8ByteSize
    · rw [if_pos hc]; exact ih l
    · rw [if_neg hc]; exact ih a

lemma chooseBest_isSome {ls : List String} (h : ls ≠ []) :
    ∃ b, chooseBest ls = some b := by
  cases ls with
  | nil => exact absurd rfl h
  | cons l rest =>
    simp only [chooseBest, List.foldl_cons, pickShorter]
    exact foldl_pickShorter_some rest l

lemma foldl_pickShorter_mem (ls : List String) :
    ∀ (o : Option String) (b : String), ls.foldl pickShorter o = some b →
      o = some b ∨ b ∈ ls := by
  induction ls with
  | nil => intro o b h; exact Or.inl h
  | cons l rest ih =>
    intro o b h
    simp only [List.foldl_cons] at h
    rcases ih (pickShorter o l) b h with h' | h'
    · cases o with
      | none =>
        simp only [pickShorter] at h'
        exact Or.inr (by rw [Option.some_inj.mp h'.symm]; exact List.mem_cons_self l rest)
      | some a =>
        simp only [pickShorter] at h'
        by_cases hc : l.utf8ByteSize < a.utf8ByteSize
        · rw [if_pos hc] at h'
          exact Or.inr (by rw [Option.some_inj.mp h'.symm]; exact List.mem_cons_self l rest)
        · rw [if_neg hc] at h'
          exact Or.inl h'
    · exact Or.inr (List.mem_cons_of_mem l h')

lemma chooseBest_mem {ls : List String} {b : String} (h : chooseBest ls = some b) :
    b ∈ ls := by
  rcases foldl_pickShorter_mem ls none b h with h' | h'
  · exact absurd h' (by simp)
  · exact h'

lemma foldl_pickShorter_best (ls : List String) :
    ∀ (a r : String), ls.foldl pickShorter (some a) = some r →
      (r = a ∧ ∀ l ∈ ls, a.utf8ByteSize ≤ l.utf8ByteSize) ∨
      (r.utf8ByteSize < a.utf8ByteSize ∧ ∃ pre post, ls = pre ++ r :: post ∧
        (∀ l ∈ pre, r.utf8ByteSize < l.utf8ByteSize) ∧
        (∀ l ∈ post, r.utf8ByteSize ≤ l.utf8ByteSize)) := by
  induction ls with
  | nil =>
    intro a r h
    exact Or.inl ⟨(Option.some_inj.mp h).symm, by simp⟩
  | cons l rest ih =>
    intro a r h
    simp only [List.foldl_cons, pickShorter] at h
    by_cases hc : l.utf8ByteSize < a.utf8ByteSize
    · rw [if_pos hc] at h
      rcases ih l r h with ⟨hr, hall⟩ | ⟨hlt, pre, post, hsplit, hpre, hpost⟩
      · subst hr
        refine Or.inr ⟨hc, [], rest, by simp, by simp, hall⟩
      · refine Or.inr ⟨lt_trans hlt hc, l :: pre, post, by simp [hsplit], ?_, hpost⟩
        intro x hx
        rcases List.mem_cons.mp hx with hx | hx
        · subst hx; exact hlt
        · exact hpre x hx
    · rw [if_neg hc] at h
      have hal : a.utf8ByteSize ≤ l.utf8ByteSize := Nat.le_of_not_lt hc
      rcases ih a r h with ⟨hr, hall⟩ | ⟨hlt, pre, post, hsplit, hpre, hpost⟩
      · subst hr
        refine Or.inl ⟨rfl, ?_⟩
        intro x hx
        rcases List.mem_cons.mp hx with hx | hx
        · subst hx; exact hal
        · exact hall x hx
      · refine Or.inr ⟨hlt, l :: pre, post, by simp [hsplit], ?_, hpost⟩
        intro x hx
        rcases List.mem_cons.mp hx with hx | hx
        · subst hx; exact lt_of_lt_of_le hlt hal
        · exact hpre x hx

lemma chooseBest_isBest {ls : List String} {r : String} (h : chooseBest ls = some r) :
    IsBest ls r := by
  cases ls with
  | nil => simp [chooseBest] at h
  | cons a rest =>
    have h' : rest.foldl pickShorter (some a) = some r := h
    rcases foldl_pickShorter_best rest a r h' with ⟨hr, hall⟩ | ⟨hlt, pre, post, hsplit, hpre, hpost⟩
    · subst hr
      exact ⟨[], rest, by simp, by simp, hall⟩
    · refine ⟨a :: pre, post, by simp [hsplit], ?_, hpost⟩
      intro x hx
      rcases List.mem_cons.mp hx with hx | hx
      · subst hx
        exact hlt
      · exact hpre x hx

lemma search_canonical (lines : List String) (term : String) :
    searchDatabaseOptimized lines term =
      (if (updBest ("", maxIntGo) ((lines.drop 1).filter (exactCand (goToLower term)))).1 ≠ "" then
        Except.ok (updBest ("", maxIntGo) ((lines.drop 1).filter (exactCand (goToLower term)))).1
      else if (updBest ("", maxIntGo) ((lines.drop 1).filter (partCand (goToLower term)))).1 ≠ "" then
        Except.ok (updBest ("", maxIntGo) ((lines.drop 1).filter (partCand (goToLower term)))).1
      else Except.error ("directory not found: " ++ term)) := by
  simp only [searchDatabaseOptimized]
  rw [foldl_searchStep_split]

/-- Master refinement lemma: on any snapshot whose body lines are
shorter than Go's `maxInt` (always true of real Go strings) and whose
candidate lines are non-empty (true whenever the term is non-empty, and
for the empty term whenever the body has no empty line),
`searchDatabaseOptimized` computes exactly the resolver described by
the spec's words. -/
theorem search_eq_resolveSpec (lines : List String) (term : String)
    (Hb : ∀ l ∈ lines.drop 1, l.utf8ByteSize < maxIntGo)
    (Hne : ∀ l ∈ lines.drop 1,
      exactCand (goToLower term) l = true ∨ partCand (goToLower term) l = true → l ≠ "") :
    searchDatabaseOptimized lines term = resolveSpec lines term := by
  have hre : relOpt (updBest ("", maxIntGo) ((lines.drop 1).filter (exactCand (goToLower term))))
      (chooseBest ((lines.drop 1).filter (exactCand (goToLower term)))) :=
    updBest_rel _ ("", maxIntGo) none (Or.inl ⟨rfl, rfl⟩)
      (fun l hl => Hb l (List.mem_of_mem_filter hl))
  have hrp : relOpt (updBest ("", maxIntGo) ((lines.drop 1).filter (partCand (goToLower term))))
      (chooseBest ((lines.drop 1).filter (partCand (goToLower term)))) :=
    updBest_rel _ ("", maxIntGo) none (Or.inl ⟨rfl, rfl⟩)
      (fun l hl => Hb l (List.mem_of_mem_filter hl))
  rw [search_canonical]
  simp only [resolveSpec]
  rcases hre with ⟨hnone, hbp⟩ | ⟨s, hsome, hbp⟩
  · rw [hnone, hbp]
    simp only [ne_eq, not_true_eq_false, if_false]
    rcases hrp with ⟨hnone2, hbp2⟩ | ⟨t, hsome2, hbp2⟩
    · rw [hnone2, hbp2]
      simp
    · rw [hsome2, hbp2]
      have ht := List.mem_filter.mp (chooseBest_mem hsome2)
      have hne : t ≠ "" := Hne t ht.1 (Or.inr ht.2)
      simp [hne]
  · rw [hsome, hbp]
    have hs := List.mem_filter.mp (chooseBest_mem hsome)
    have hne : s ≠ "" := Hne s hs.1 (Or.inl hs.2)
    simp [hne]

lemma searchStep_bestExact_cases (tl : String) (st : SearchState) (l : String) :
    (searchStep tl st l).bestExact = st.bestExact ∨
      ((searchStep tl st l).bestExact = l ∧ exactCand tl l = true) := by
  simp only [searchStep]
  by_cases hx : goToLower (baseNameOf l) = tl
  · rw [if_pos hx]
    by_cases hlen : l.utf8ByteSize < st.bestExactLen
    · rw [if_pos hlen]
      exact Or.inr ⟨rfl, by simp [exactCand, hx]⟩
    · rw [if_neg hlen]
      exact Or.inl rfl
  · rw [if_neg hx]
    by_cases hc : containsSub (goToLower (baseNameOf l)) tl = true
    · rw [if_pos hc]
      by_cases hlen : l.utf8ByteSize < st.bestPartialLen
      · rw [if_pos hlen]; exact Or.inl rfl
      · rw [if_neg hlen]; exact Or.inl rfl
    · rw [if_neg hc]
      exact Or.inl rfl

lemma searchStep_bestPartial_cases (tl : String) (st : SearchState) (l : String) :
    (searchStep tl st l).bestPartial = st.bestPartial ∨
      ((searchStep tl st l).bestPartial = l ∧
        containsSub (goToLower (baseNameOf l)) tl = true) := by
  simp only [searchStep]
  by_cases hx : goToLower (baseNameOf l) = tl
  · rw [if_pos hx]
    by_cases hlen : l.utf8ByteSize < st.bestExactLen
    · rw [if_pos hlen]; exact Or.inl rfl
    · rw [if_neg hlen]; exact Or.inl rfl
  · rw [if_neg hx]
    by_cases hc : containsSub (goToLower (baseNameOf l)) tl = true
    · rw [if_pos hc]
      by_cases hlen : l.utf8ByteSize < st.bestPartialLen
      · rw [if_pos hlen]
        exact Or.inr ⟨rfl, hc⟩
      · rw [if_neg hlen]; exact Or.inl rfl
    · rw [if_neg hc]
      exact Or.inl rfl

lemma foldl_searchStep_mem (tl : String) (ls : List String) :
    ∀ st : SearchState,
      ((ls.foldl (searchStep tl) st).bestExact = st.bestExact ∨
        ((ls.foldl (searchStep tl) st).bestExact ∈ ls ∧
          exactCand tl (ls.foldl (searchStep tl) st).bestExact = true)) ∧
      ((ls.foldl (searchStep tl) st).bestPartial = st.bestPartial ∨
        ((ls.foldl (searchStep tl) st).bestPartial ∈ ls ∧
          containsSub (goToLower (baseNameOf (ls.foldl (searchStep tl) st).bestPartial)) tl = true)) := by
  induction ls with
  | nil => intro st; exact ⟨Or.inl rfl, Or.inl rfl⟩
  | cons l rest ih =>
    intro st
    simp only [List.foldl_cons]
    rcases ih (searchStep tl st l) with ⟨ihe, ihp⟩
    constructor
    · rcases ihe with ihe | ⟨hmem, hcand⟩
      · rw [ihe]
        rcases searchStep_bestExact_cases tl st l with h | ⟨hl, hcand⟩
        · exact Or.inl h
        · exact Or.inr ⟨by rw [hl]; exact List.mem_cons_self l rest, by rw [hl]; exact hcand⟩
      · exact Or.inr ⟨List.mem_cons_of_mem l hmem, hcand⟩
    · rcases ihp with ihp | ⟨hmem, hcand⟩
      · rw [ihp]
        rcases searchStep_bestPartial_cases tl st l with h | ⟨hl, hcand⟩
        · exact Or.inl h
        · exact Or.inr ⟨by rw [hl]; exact List.mem_cons_self l rest, by rw [hl]; exact hcand⟩
      · exact Or.inr ⟨List.mem_cons_of_mem l hmem, hcand⟩

lemma search_ok_shape {lines : List String} {term r : String}
    (h : searchDatabaseOptimized lines term = Except.ok r) :
    r ∈ lines.drop 1 ∧ containsSub (goToLower (baseNameOf r)) (goToLower term) = true := by
  have hmem := foldl_searchStep_mem (goToLower term) (lines.drop 1)
    ⟨"", "", maxIntGo, maxIntGo⟩
  simp only [searchDatabaseOptimized] at h
  split at h
  · rename_i hcond
    have hr : r = ((lines.drop 1).foldl (searchStep (goToLower term))
        ⟨"", "", maxIntGo, maxIntGo⟩).bestExact := (Except.ok.injEq _ _).mp h.symm
    rcases hmem.1 with he | ⟨hin, hcand⟩
    · exact absurd (hr ▸ he) (hr ▸ hcond)
    · exact ⟨hr ▸ hin, hr ▸ exactCand_contains hcand⟩
  · split at h
    · rename_i hcond
      have hr : r = ((lines.drop 1).foldl (searchStep (goToLower term))
          ⟨"", "", maxIntGo, maxIntGo⟩).bestPartial := (Except.ok.injEq _ _).mp h.symm
      rcases hmem.2 with he | ⟨hin, hcand⟩
      · exact absurd (hr ▸ he) (hr ▸ hcond)
      · exact ⟨hr ▸ hin, hr ▸ hcand⟩
    · exact absurd h (by simp)

lemma foldl_searchStep_id (tl : String) (ls : List String)
    (h : ∀ l ∈ ls, containsSub (goToLower (baseNameOf l)) tl = false) :
    ∀ st : SearchState, ls.foldl (searchStep tl) st = st := by
  induction ls with
  | nil => intro st; rfl
  | cons l rest ih =>
    intro st
    have hl := h l (List.mem_cons_self l rest)
    have hx : ¬goToLower (baseNameOf l) = tl := by
      intro he
      rw [he] at hl
      rw [containsSub_self] at hl
      exact Bool.true_eq_false.mp hl
    simp only [List.foldl_cons, searchStep]
    rw [if_neg hx, if_neg (by simp [hl])]
    exact ih (fun x hx => h x (List.mem_cons_of_mem l hx)) st

lemma search_no_cand {lines : List String} {term : String}
    (h : ∀ l ∈ lines.drop 1, containsSub (goToLower (baseNameOf l)) (goToLower term) = false) :
    searchDatabaseOptimized lines term = Except.error ("directory not found: " ++ term) := by
  simp only [searchDatabaseOptimized]
  rw [foldl_searchStep_id (goToLower term) (lines.drop 1) h]
  rfl

lemma hasSubList_nil_sub (l : List Char) : hasSubList [] l = true := by
  cases l with
  | nil => rfl
  | cons c cs => simp [hasSubList, List.isPrefixOf]

lemma containsSub_empty_sub (s : String) : containsSub s "" = true :=
  hasSubList_nil_sub s.toList

lemma afterLastSlash_ne_nil : ∀ (cs : List Char), cs ≠ [] →
    cs.getLast? ≠ some '/' → afterLastSlash cs ≠ [] := by
  intro cs
  induction cs with
  | nil => intro h _; exact absurd rfl h
  | cons c cs ih =>
    intro _ hlast
    simp only [afterLastSlash]
    by_cases hm : '/' ∈ cs
    · rw [if_pos hm]
      have hcs : cs ≠ [] := List.ne_nil_of_mem hm
      have hsame : (c :: cs).getLast? = cs.getLast? := by
        cases cs with
        | nil => exact absurd rfl hcs
        | cons d ds => simp [List.getLast?_cons_cons]
      exact ih hcs (by rw [hsame] at hlast; exact hlast)
    · rw [if_neg hm]
      by_cases hc : c = '/'
      · rw [if_pos hc]
        cases cs with
        | nil =>
          exfalso
          exact hlast (by simp [hc])
        | cons d ds => simp
      · rw [if_neg hc]
        simp

lemma baseNameOf_ne_empty {l : String} (h1 : l ≠ "") (h2 : endsWithSlash l = false) :
    baseNameOf l ≠ "" := by
  have hnil : l.toList ≠ [] := fun h => h1 ((data_nil_iff l).mp h)
  have hlast : l.data.getLast? ≠ some '/' := by
    intro h
    simp only [endsWithSlash, String.toList] at h2
    rw [h] at h2
    simp at h2
  intro hb
  have hdata : afterLastSlash l.toList = [] := congrArg String.data hb
  exact afterLastSlash_ne_nil l.toList hnil hlast hdata

lemma search_exact_best {lines : List String} {term : String}
    (Hb : ∀ l ∈ lines.drop 1, l.utf8ByteSize < maxIntGo)
    (Hne : ∀ l ∈ lines.drop 1,
      exactCand (goToLower term) l = true ∨ partCand (goToLower term) l = true → l ≠ "")
    (hne : (lines.drop 1).filter (exactCand (goToLower term)) ≠ []) :
    ∃ r, searchDatabaseOptimized lines term = Except.ok r ∧
      chooseBest ((lines.drop 1).filter (exactCand (goToLower term))) = some r := by
  rw [search_eq_resolveSpec lines term Hb Hne]
  simp only [resolveSpec]
  obtain ⟨b, hb⟩ := chooseBest_isSome hne
  rw [hb]
  exact ⟨b, rfl, rfl⟩

lemma search_part_best {lines : List String} {term : String}
    (Hb : ∀ l ∈ lines.drop 1, l.utf8ByteSize < maxIntGo)
    (Hne : ∀ l ∈ lines.drop 1,
      exactCand (goToLower term) l = true ∨ partCand (goToLower term) l = true → l ≠ "")
    (hemp : (lines.drop 1).filter (exactCand (goToLower term)) = [])
    (hne : (lines.drop 1).filter (partCand (goToLower term)) ≠ []) :
    ∃ r, searchDatabaseOptimized lines term = Except.ok r ∧
      chooseBest ((lines.drop 1).filter (partCand (goToLower term))) = some r := by
  rw [search_eq_resolveSpec lines term Hb Hne]
  simp only [resolveSpec, hemp]
  obtain ⟨b, hb⟩ := chooseBest_isSome hne
  rw [hb]
  exact ⟨b, rfl, rfl⟩

lemma hne_of_term_ne (lines : List String) {term : String} (hterm : term ≠ "") :
    ∀ l ∈ lines.drop 1,
      exactCand (goToLower term) l = true ∨ partCand (goToLower term) l = true → l ≠ "" :=
  fun _ _ hc => cand_ne_empty hterm hc

/-- Claim C2: for every snapshot and non-empty term, if at least one
body line is an exact candidate (base name case-insensitively equal to
the term), `searchDatabaseOptimized` returns the best exact candidate
from the body, regardless of any partial candidate and its length
(hypothesis `Hb`, that every body line is shorter than Go's `maxInt`,
is implicit in Go's `int`-valued `len`). -/
theorem claim_C2 (lines : List String) (term : String)
    (hterm : term ≠ "")
    (Hb : ∀ l ∈ lines.drop 1, l.utf8ByteSize < maxIntGo)
    (hex : ∃ l ∈ lines.drop 1, exactCand (goToLower term) l = true) :
    ∃ r, searchDatabaseOptimized lines term = Except.ok r ∧
      r ∈ lines.drop 1 ∧ exactCand (goToLower term) r = true ∧
      IsBest ((lines.drop 1).filter (exactCand (goToLower term))) r := by
  obtain ⟨l, hl, hcand⟩ := hex
  have hne : (lines.drop 1).filter (exactCand (goToLower term)) ≠ [] := by
    intro hnil
    have hm : l ∈ (lines.drop 1).filter (exactCand (goToLower term)) :=
      List.mem_filter.mpr ⟨hl, hcand⟩
    rw [hnil] at hm
    exact absurd hm (List.not_mem_nil l)
  obtain ⟨r, hr, hcb⟩ := search_exact_best Hb (hne_of_term_ne lines hterm) hne
  have hrm := List.mem_filter.mp (chooseBest_mem hcb)
  exact ⟨r, hr, hrm.1, hrm.2, chooseBest_isBest hcb⟩

/-- Claim C2, witnessed on the spec's own example: with body lines
`/a/foo` and `/a/foobar`, the term "foo" resolves to the exact match
`/a/foo` even though `/a/foo` and `/a/foobar` both contain "foo". -/
theorem claim_C2_witness :
    (∃ r, searchDatabaseOptimized ["/a", "/a/foo", "/a/foobar"] "foo" = Except.ok r ∧
      r ∈ (["/a", "/a/foo", "/a/foobar"] : List String).drop 1 ∧
      exactCand (goToLower "foo") r = true ∧
      IsBest ((["/a", "/a/foo", "/a/foobar"] : List String).drop 1 |>.filter
        (exactCand (goToLower "foo"))) r) ∧
    searchDatabaseOptimized ["/a", "/a/foo", "/a/foobar"] "foo" = Except.ok "/a/foo" :=
  ⟨claim_C2 ["/a", "/a/foo", "/a/foobar"] "foo" (by decide) (by decide)
    ⟨"/a/foo", by decide, by decide⟩, rfl⟩

/-- Claim C3: within each tier independently, the resolver keeps the
candidate with the shortest total path-string length, and among equal
lengths the one seen first in snapshot order (`IsBest`): if the exact
tier is non-empty the result is the best exact candidate, and if the
exact tier is empty and the partial tier non-empty the result is the
best partial candidate. -/
theorem claim_C3 (lines : List String) (term : String)
    (hterm : term ≠ "")
    (Hb : ∀ l ∈ lines.drop 1, l.utf8ByteSize < maxIntGo) :
    ((lines.drop 1).filter (exactCand (goToLower term)) ≠ [] →
      ∃ r, searchDatabaseOptimized lines term = Except.ok r ∧
        IsBest ((lines.drop 1).filter (exactCand (goToLower term))) r) ∧
    ((lines.drop 1).filter (exactCand (goToLower term)) = [] →
      (lines.drop 1).filter (partCand (goToLower term)) ≠ [] →
      ∃ r, searchDatabaseOptimized lines term = Except.ok r ∧
        IsBest ((lines.drop 1).filter (partCand (goToLower term))) r) := by
  constructor
  · intro hne
    obtain ⟨r, hr, hcb⟩ := search_exact_best Hb (hne_of_term_ne lines hterm) hne
    exact ⟨r, hr, chooseBest_isBest hcb⟩
  · intro hemp hne
    obtain ⟨r, hr, hcb⟩ := search_part_best Hb (hne_of_term_ne lines hterm) hemp hne
    exact ⟨r, hr, chooseBest_isBest hcb⟩

/-- Claim C3, witnessed on the spec's own example: with body lines
`/a/x/proj` and `/proj`, the term "proj" resolves to the shorter `/proj`. -/
theorem claim_C3_witness :
    (∃ r, searchDatabaseOptimized ["/", "/a/x/proj", "/proj"] "proj" = Except.ok r ∧
      IsBest ((["/", "/a/x/proj", "/proj"] : List String).drop 1 |>.filter
        (exactCand (goToLower "proj"))) r) ∧
    searchDatabaseOptimized ["/", "/a/x/proj", "/proj"] "proj" = Except.ok "/proj" :=
  ⟨(claim_C3 ["/", "/a/x/proj", "/proj"] "proj" (by decide) (by decide)).1 (by decide), rfl⟩

/-- Claim C4: matching is case-insensitive in both tiers.  First, the
set of successful results depends on the search term only through its
lowercasing.  Second, for a non-empty term resolution succeeds exactly
when some body line's lowercased base name contains the lowercased term
as a substring (exact candidates being the special case of equality). -/
theorem claim_C4 (lines : List String) :
    (∀ t₁ t₂ : String, goToLower t₁ = goToLower t₂ →
      ∀ r, (searchDatabaseOptimized lines t₁ = Except.ok r ↔
        searchDatabaseOptimized lines t₂ = Except.ok r)) ∧
    (∀ term : String, term ≠ "" →
      (∀ l ∈ lines.drop 1, l.utf8ByteSize < maxIntGo) →
      ((∃ r, searchDatabaseOptimized lines term = Except.ok r) ↔
        ∃ l ∈ lines.drop 1,
          containsSub (goToLower (baseNameOf l)) (goToLower term) = true)) := by
  constructor
  · intro t1 t2 h r
    simp only [searchDatabaseOptimized, h]
    by_cases h1 : (List.foldl (searchStep (goToLower t2))
        ⟨"", "", maxIntGo, maxIntGo⟩ (List.drop 1 lines)).bestExact ≠ ""
    · rw [if_pos h1, if_pos h1]
    · rw [if_neg h1, if_neg h1]
      by_cases h2 : (List.foldl (searchStep (goToLower t2))
          ⟨"", "", maxIntGo, maxIntGo⟩ (List.drop 1 lines)).bestPartial ≠ ""
      · rw [if_pos h2, if_pos h2]
      · rw [if_neg h2, if_neg h2]
        constructor <;> intro he <;> exact absurd he (by simp)
  · intro term hterm Hb
    constructor
    · rintro ⟨r, hr⟩
      obtain ⟨hin, hc⟩ := search_ok_shape hr
      exact ⟨r, hin, hc⟩
    · rintro ⟨l, hl, hc⟩
      by_cases hx : exactCand (goToLower term) l = true
      · have hne : (lines.drop 1).filter (exactCand (goToLower term)) ≠ [] := by
          intro hnil
          have hm : l ∈ (lines.drop 1).filter (exactCand (goToLower term)) :=
            List.mem_filter.mpr ⟨hl, hx⟩
          rw [hnil] at hm
          exact absurd hm (List.not_mem_nil l)
        obtain ⟨r, hr, _⟩ := search_exact_best Hb (hne_of_term_ne lines hterm) hne
        exact ⟨r, hr⟩
      · have hpx : partCand (goToLower term) l = true := by
          simp only [partCand, Bool.and_eq_true, Bool.not_eq_true']
          exact ⟨by simpa using hx, hc⟩
        by_cases hemp : (lines.drop 1).filter (exactCand (goToLower term)) = []
        · have hne : (lines.drop 1).filter (partCand (goToLower term)) ≠ [] := by
            intro hnil
            have hm : l ∈ (lines.drop 1).filter (partCand (goToLower term)) :=
              List.mem_filter.mpr ⟨hl, hpx⟩
            rw [hnil] at hm
            exact absurd hm (List.not_mem_nil l)
          obtain ⟨r, hr, _⟩ := search_part_best Hb (hne_of_term_ne lines hterm) hemp hne
          exact ⟨r, hr⟩
        · obtain ⟨r, hr, _⟩ := search_exact_best Hb (hne_of_term_ne lines hterm) hemp
          exact ⟨r, hr⟩

/-- Claim C4, witnessed on the spec's own example: the uppercase term
"PROJ" matches a directory named `proj` exactly as the lowercase term
does. -/
theorem claim_C4_witness :
    (searchDatabaseOptimized ["/h", "/h/proj"] "PROJ" = Except.ok "/h/proj" ↔
      searchDatabaseOptimized ["/h", "/h/proj"] "proj" = Except.ok "/h/proj") ∧
    searchDatabaseOptimized ["/h", "/h/proj"] "PROJ" = Except.ok "/h/proj" :=
  ⟨(claim_C4 ["/h", "/h/proj"]).1 "PROJ" "proj" (by decide) "/h/proj", rfl⟩

/-- Claim C7: if no body line is an exact or partial candidate (no
lowercased base name contains the lowercased term), the resolver fails
with the error `"directory not found: <term>"`, which carries the
original term as a substring. -/
theorem claim_C7 (lines : List String) (term : String)
    (h : ∀ l ∈ lines.drop 1,
      containsSub (goToLower (baseNameOf l)) (goToLower term) = false) :
    searchDatabaseOptimized lines term = Except.error ("directory not found: " ++ term) ∧
      containsSub ("directory not found: " ++ term) term = true :=
  ⟨search_no_cand h, containsSub_append_right _ term⟩

/-- Claim C7, witnessed on the spec's own example: the term
"zzz-nonexistent" against a snapshot with no matching base name. -/
theorem claim_C7_witness :
    searchDatabaseOptimized ["/", "/a/b"] "zzz-nonexistent" =
      Except.error ("directory not found: " ++ "zzz-nonexistent") ∧
    containsSub ("directory not found: " ++ "zzz-nonexistent") "zzz-nonexistent" = true :=
  claim_C7 ["/", "/a/b"] "zzz-nonexistent" (by decide)

/-- Claim C8: the first snapshot line (the header) is always discarded,
so any successful result is one of the lines after the first; and on a
snapshot with no lines or only a header line the resolver returns the
NotFound error rather than crashing. -/
theorem claim_C8 (lines : List String) (term : String) :
    (∀ r, searchDatabaseOptimized lines term = Except.ok r → r ∈ lines.drop 1) ∧
    (lines.length ≤ 1 →
      searchDatabaseOptimized lines term = Except.error ("directory not found: " ++ term)) := by
  constructor
  · intro r hr
    exact (search_ok_shape hr).1
  · intro hlen
    apply search_no_cand
    intro l hl
    rw [List.drop_eq_nil_of_le hlen] at hl
    exact absurd hl (List.not_mem_nil l)

/-- Claim C8, witnessed on the empty snapshot. -/
theorem claim_C8_witness :
    searchDatabaseOptimized [] "x" = Except.error ("directory not found: " ++ "x") :=
  (claim_C8 [] "x").2 (by decide)

/-- Claim C9: whenever the resolver succeeds, the returned string is
one of the snapshot's lines after the first, and its lowercased base
name contains the lowercased search term as a substring; no path is
fabricated. -/
theorem claim_C9 (lines : List String) (term r : String)
    (h : searchDatabaseOptimized lines term = Except.ok r) :
    r ∈ lines.drop 1 ∧
      containsSub (goToLower (baseNameOf r)) (goToLower term) = true :=
  search_ok_shape h

/-- Claim C9, witnessed on a concrete resolution. -/
theorem claim_C9_witness :
    "/a/myprojectfolder" ∈ (["/", "/a/myprojectfolder"] : List String).drop 1 ∧
      containsSub (goToLower (baseNameOf "/a/myprojectfolder")) (goToLower "proj") = true :=
  claim_C9 ["/", "/a/myprojectfolder"] "proj" "/a/myprojectfolder" rfl

/-- Claim C10, counterexample: the snapshot `["/r", ""]` has a
non-empty body (`[""]`) none of whose lines ends in a path separator,
yet the resolver with the empty term fails with NotFound instead of
returning a body line: the empty line is recorded as an exact match for
the empty term, but the sentinel test `bestExact != ""` cannot see it,
and the `continue` kept it out of the partial tier. -/
theorem claim_C10_counterexample :
    ((["/r", ""] : List String).drop 1 ≠ [] ∧
      (∀ l ∈ (["/r", ""] : List String).drop 1, endsWithSlash l = false)) ∧
    searchDatabaseOptimized ["/r", ""] "" = Except.error ("directory not found: " ++ "") :=
  ⟨⟨by decide, by decide⟩, rfl⟩

/-- Claim C10 as amended: for the empty search term, against any
snapshot whose body is non-empty and whose body lines are all
*non-empty* and do not end in a path separator, the resolver succeeds
and returns the shortest body line overall, first-seen among lines of
equal length, as a partial match. -/
theorem claim_C10_amended (lines : List String)
    (hne : lines.drop 1 ≠ [])
    (hlines : ∀ l ∈ lines.drop 1, l ≠ "" ∧ endsWithSlash l = false)
    (Hb : ∀ l ∈ lines.drop 1, l.utf8ByteSize < maxIntGo) :
    ∃ r, searchDatabaseOptimized lines "" = Except.ok r ∧ IsBest (lines.drop 1) r := by
  have Hne : ∀ l ∈ lines.drop 1,
      exactCand (goToLower "") l = true ∨ partCand (goToLower "") l = true → l ≠ "" :=
    fun l hl _ => (hlines l hl).1
  have hbase : ∀ l ∈ lines.drop 1, baseNameOf l ≠ "" :=
    fun l hl => baseNameOf_ne_empty (hlines l hl).1 (hlines l hl).2
  have hexf : ∀ l ∈ lines.drop 1, exactCand (goToLower "") l = false := by
    intro l hl
    have hb : goToLower (baseNameOf l) ≠ "" := by
      intro he
      exact hbase l hl ((goToLower_empty_iff _).mp he)
    simp only [exactCand]
    have hlow : goToLower "" = "" := rfl
    rw [hlow]
    exact beq_eq_false_iff_ne.mpr hb
  have hemp : (lines.drop 1).filter (exactCand (goToLower "")) = [] := by
    rw [List.filter_eq_nil_iff]
    intro l hl
    simp [hexf l hl]
  have hpart : ∀ l ∈ lines.drop 1, partCand (goToLower "") l = true := by
    intro l hl
    simp only [partCand, Bool.and_eq_true, Bool.not_eq_true']
    refine ⟨hexf l hl, ?_⟩
    have hlow : goToLower "" = "" := rfl
    rw [hlow]
    exact containsSub_empty_sub _
  have hfull : (lines.drop 1).filter (partCand (goToLower "")) = lines.drop 1 :=
    List.filter_eq_self.mpr hpart
  have hnef : (lines.drop 1).filter (partCand (goToLower "")) ≠ [] := by
    rw [hfull]; exact hne
  obtain ⟨r, hr, hcb⟩ := search_part_best Hb Hne hemp hnef
  rw [hfull] at hcb
  exact ⟨r, hr, chooseBest_isBest hcb⟩

/-- Claim C10 (amended), witnessed: the empty term against the snapshot
`["/r", "/a/bb", "/c"]` resolves to the shortest body line `/c`. -/
theorem claim_C10_witness :
    (∃ r, searchDatabaseOptimized ["/r", "/a/bb", "/c"] "" = Except.ok r ∧
      IsBest ((["/r", "/a/bb", "/c"] : List String).drop 1) r) ∧
    searchDatabaseOptimized ["/r", "/a/bb", "/c"] "" = Except.ok "/c" :=
  ⟨claim_C10_amended ["/r", "/a/bb", "/c"] (by decide) (by decide) (by decide), rfl⟩

mutual
theorem walkNode_eq (path : String) (n : FSNode) :
    walkNode path n = (allowedPaths path n, none) := by
  cases n with
  | file name => rfl
  | dir name rb cs =>
    by_cases hg : name = ".git"
    · subst hg
      rfl
    · have hgb : (name == ".git") = false := beq_eq_false_iff_ne.mpr hg
      cases rb with
      | true =>
        have h := walkList_eq path cs
        simp [walkNode, walkFnGen, hgb, allowedPaths, hg, h]
      | false =>
        simp [walkNode, walkFnGen, hgb, allowedPaths, hg]
theorem walkList_eq (path : String) (cs : FSList) :
    walkList path cs = (allowedChildren path cs, none) := by
  cases cs with
  | nil => rfl
  | cons c rest =>
    have h1 := walkNode_eq (goJoin path (nameN c)) c
    have h2 := walkList_eq path rest
    simp [walkList, h1, h2, allowedChildren]
end

lemma generateDatabase_some (baseDir : String) (n : FSNode) :
    generateDatabase baseDir (some n) = (baseDir :: allowedPaths baseDir n, none) := by
  simp [generateDatabase, goWalkDir, walkNode_eq baseDir n]

theorem allowedChildren_eq_nil_of_noDir (path : String) (cs : FSList)
    (h : noDirChild cs = true) : allowedChildren path cs = [] := by
  cases cs with
  | nil => rfl
  | cons c rest =>
    simp only [noDirChild, Bool.and_eq_true, Bool.not_eq_true'] at h
    have hc : allowedPaths (goJoin path (nameN c)) c = [] := by
      cases c with
      | file nm => rfl
      | dir nm rb cs' => simp [isDirN] at h
    simp [allowedChildren, hc, allowedChildren_eq_nil_of_noDir path rest h.2]

/-- Claim C6, counterexample: per the claim, `generateDatabase` should
fail with an I/O error when the root does not exist or is unreadable at
the top level; in fact both cases succeed (error component `none`),
because the callback answers `SkipDir` to the reported error and
`WalkDir` converts that into a nil error.  A missing root yields a
header-only snapshot; an unreadable root is itself still listed. -/
theorem claim_C6_counterexample :
    generateDatabase "/r" none = (["/r"], none) ∧
    generateDatabase "/r" (some (FSNode.dir "r" false FSList.nil)) = (["/r", "/r"], none) :=
  ⟨rfl, rfl⟩

/-- Claim C6 as amended: `generateDatabase` never fails because of
filesystem read errors at all -- a root that cannot be accessed and
unreadable subtrees alike are pruned locally (the callback answers
`SkipDir`, which the walk converts to success), and only snapshot-file
create/write errors (outside this model) can fail the operation. -/
theorem claim_C6_amended (baseDir : String) (fsroot : Option FSNode) :
    (generateDatabase baseDir fsroot).2 = none := by
  cases fsroot with
  | none => rfl
  | some n => rw [generateDatabase_some]

/-- Claim C1, counterexample: scanning a root with zero subdirectories
does not yield an empty body -- `filepath.WalkDir` visits the root
itself and the callback writes it, so the body is exactly the root
path; and a subsequent resolution whose term matches the root's base
name succeeds instead of failing with NotFound. -/
theorem claim_C1_counterexample :
    (generateDatabase "/r" (some (FSNode.dir "r" true FSList.nil))).1.drop 1 = ["/r"] ∧
    searchDatabaseOptimized
      (generateDatabase "/r" (some (FSNode.dir "r" true FSList.nil))).1 "r" =
      Except.ok "/r" :=
  ⟨rfl, rfl⟩

/-- Claim C1 as amended: the root itself appears as the first body line
(in addition to the header) whenever the root exists and its entry name
is not ".git"; scanning a root with zero subdirectories yields a body
holding exactly the root path, and a subsequent resolution fails with
NotFound exactly for terms that do not match the root's base name (here
stated for non-matching terms). -/
theorem claim_C1_amended (baseDir name : String) (rb : Bool) (children : FSList)
    (hname : name ≠ ".git") (hkids : noDirChild children = true) :
    generateDatabase baseDir (some (FSNode.dir name rb children)) =
      ([baseDir, baseDir], none) ∧
    (∀ term : String,
      containsSub (goToLower (baseNameOf baseDir)) (goToLower term) = false →
      searchDatabaseOptimized [baseDir, baseDir] term =
        Except.error ("directory not found: " ++ term)) := by
  constructor
  · rw [generateDatabase_some]
    have hap : allowedPaths baseDir (FSNode.dir name rb children) = [baseDir] := by
      simp only [allowedPaths]
      rw [if_neg hname]
      cases rb with
      | true => rw [if_pos rfl, allowedChildren_eq_nil_of_noDir baseDir children hkids]
      | false => rfl
    rw [hap]
  · intro term hterm
    apply search_no_cand
    intro l hl
    have : l = baseDir := by
      rcases List.mem_singleton.mp hl with h
      exact h
    rw [this]
    exact hterm

/-- Claim C1 (amended), witnessed on a childless root. -/
theorem claim_C1_witness :
    generateDatabase "/home/u" (some (FSNode.dir "u" true FSList.nil)) =
      (["/home/u", "/home/u"], none) ∧
    searchDatabaseOptimized ["/home/u", "/home/u"] "zzz" =
      Except.error ("directory not found: " ++ "zzz") :=
  ⟨(claim_C1_amended "/home/u" "u" true FSList.nil (by decide) (by decide)).1,
   (claim_C1_amended "/home/u" "u" true FSList.nil (by decide) (by decide)).2 "zzz" (by decide)⟩

lemma splitSlash_ne_nil (cs : List Char) : splitSlash cs ≠ [] := by
  cases cs with
  | nil => simp [splitSlash]
  | cons c cs =>
    simp only [splitSlash]
    by_cases hc : c = '/'
    · rw [if_pos hc]; simp
    · rw [if_neg hc]; simp

lemma headD_append_of_ne_nil {α : Type} (l₁ l₂ : List α) (h : l₁ ≠ []) (d : α) :
    (l₁ ++ l₂).headD d = l₁.headD d := by
  cases l₁ with
  | nil => exact absurd rfl h
  | cons a t => rfl

lemma tail_append_of_ne_nil {α : Type} (l₁ l₂ : List α) (h : l₁ ≠ []) :
    (l₁ ++ l₂).tail = l₁.tail ++ l₂ := by
  cases l₁ with
  | nil => exact absurd rfl h
  | cons a t => rfl

lemma splitSlash_cons (c : Char) (cs : List Char) :
    splitSlash (c :: cs) =
      if c = '/' then [] :: splitSlash cs
      else (c :: (splitSlash cs).headD []) :: (splitSlash cs).tail := rfl

lemma splitSlash_append (a b : List Char) :
    splitSlash (a ++ '/' :: b) = splitSlash a ++ splitSlash b := by
  induction a with
  | nil => simp [splitSlash]
  | cons c a ih =>
    rw [List.cons_append, splitSlash_cons, splitSlash_cons]
    by_cases hc : c = '/'
    · rw [if_pos hc, if_pos hc, ih]
      rfl
    · rw [if_neg hc, if_neg hc, ih,
        headD_append_of_ne_nil _ _ (splitSlash_ne_nil a),
        tail_append_of_ne_nil _ _ (splitSlash_ne_nil a)]
      rfl

lemma splitSlash_no_slash (cs : List Char) (h : '/' ∉ cs) : splitSlash cs = [cs] := by
  induction cs with
  | nil => rfl
  | cons c cs ih =>
    have hc : c ≠ '/' := fun he => h (he ▸ List.mem_cons_self c cs)
    have hcs : '/' ∉ cs := fun hm => h (List.mem_cons_of_mem c hm)
    simp only [splitSlash, ih hcs]
    rw [if_neg hc]
    rfl

lemma endsWithSlash_decomp {p : String} (h : endsWithSlash p = true) :
    ∃ q, p.toList = q ++ ['/'] := by
  simp only [endsWithSlash] at h
  split at h
  · rename_i c heq
    have hc : c = '/' := by simpa using h
    subst hc
    have hne : p.toList ≠ [] := by
      intro hnil
      rw [hnil] at heq
      simp at heq
    refine ⟨p.toList.dropLast, ?_⟩
    have hlast : p.toList.getLast hne = '/' := by
      have := List.getLast?_eq_getLast p.toList hne
      rw [this] at heq
      exact (Option.some_inj.mp heq)
    rw [← hlast]
    exact (List.dropLast_append_getLast hne).symm
  · exact absurd h (by simp)

lemma goJoin_git_free {p nm : String}
    (hp : gitChars ∉ splitSlash p.toList)
    (hnm : nm.toList ≠ gitChars)
    (hsl : '/' ∉ nm.toList) :
    gitChars ∉ splitSlash (goJoin p nm).toList := by
  unfold goJoin
  by_cases he : endsWithSlash p = true
  · rw [if_pos he]
    obtain ⟨q, hq⟩ := endsWithSlash_decomp he
    have hq' : p.data = q ++ ['/'] := hq
    have hlist : (p ++ nm).toList = q ++ '/' :: nm.toList := by
      show (p ++ nm).data = q ++ '/' :: nm.data
      rw [String.data_append, hq']
      simp
    rw [hlist, splitSlash_append, splitSlash_no_slash nm.toList hsl]
    have hq' : gitChars ∉ splitSlash q := by
      have : splitSlash p.toList = splitSlash q ++ [[]] := by
        rw [hq]
        have : q ++ ['/'] = q ++ '/' :: ([] : List Char) := rfl
        rw [this, splitSlash_append]
        rfl
      rw [this] at hp
      intro hm
      exact hp (List.mem_append_left _ hm)
    intro hm
    rcases List.mem_append.mp hm with hm | hm
    · exact hq' hm
    · rcases List.mem_singleton.mp hm with hm
      exact hnm hm.symm
  · rw [if_neg he]
    have hlist : (p ++ "/" ++ nm).toList = p.toList ++ '/' :: nm.toList := by
      show (p ++ "/" ++ nm).data = p.data ++ '/' :: nm.data
      rw [String.data_append, String.data_append]
      simp
    rw [hlist, splitSlash_append, splitSlash_no_slash nm.toList hsl]
    intro hm
    rcases List.mem_append.mp hm with hm | hm
    · exact hp hm
    · rcases List.mem_singleton.mp hm with hm
      exact hnm hm.symm

lemma cleanN_name {c : FSNode} (h : cleanN c = true) : '/' ∉ (nameN c).toList := by
  cases c with
  | file nm =>
    exact of_decide_eq_true h
  | dir nm rb cs =>
    exact of_decide_eq_true ((Bool.and_eq_true _ _).mp h).1

lemma string_ne_of_toList_ne {a b : String} (h : a ≠ b) : a.toList ≠ b.toList :=
  fun he => h (String.ext he)

mutual
theorem allowedPaths_git_free (path : String) (n : FSNode)
    (hp : gitChars ∉ splitSlash path.toList) (hc : cleanN n = true) :
    ∀ l ∈ allowedPaths path n, gitChars ∉ splitSlash l.toList := by
  cases n with
  | file nm => intro l hl; exact absurd hl (List.not_mem_nil l)
  | dir nm rb cs =>
    intro l hl
    simp only [allowedPaths] at hl
    by_cases hg : nm = ".git"
    · rw [if_pos hg] at hl
      exact absurd hl (List.not_mem_nil l)
    · rw [if_neg hg] at hl
      rcases List.mem_cons.mp hl with hl | hl
      · subst hl; exact hp
      · cases rb with
        | true =>
          exact allowedChildren_git_free path cs hp
            ((Bool.and_eq_true _ _).mp hc).2 l hl
        | false => exact absurd hl (List.not_mem_nil l)
theorem allowedChildren_git_free (path : String) (cs : FSList)
    (hp : gitChars ∉ splitSlash path.toList) (hc : cleanL cs = true) :
    ∀ l ∈ allowedChildren path cs, gitChars ∉ splitSlash l.toList := by
  cases cs with
  | nil => intro l hl; exact absurd hl (List.not_mem_nil l)
  | cons c rest =>
    intro l hl
    have hcc : cleanN c = true := ((Bool.and_eq_true _ _).mp hc).1
    have hcr : cleanL rest = true := ((Bool.and_eq_true _ _).mp hc).2
    rcases List.mem_append.mp hl with hl | hl
    · by_cases hg : nameN c = ".git"
      · have hnil : allowedPaths (goJoin path (nameN c)) c = [] := by
          cases c with
          | file nm => rfl
          | dir nm rb cs' =>
            simp only [allowedPaths]
            rw [if_pos (show nm = ".git" from hg)]
        rw [hnil] at hl
        exact absurd hl (List.not_mem_nil l)
      · have hp' : gitChars ∉ splitSlash (goJoin path (nameN c)).toList :=
          goJoin_git_free hp
            (by
              have : (nameN c) ≠ ".git" := hg
              have hx := string_ne_of_toList_ne this
              simpa using hx)
            (cleanN_name hcc)
        exact allowedPaths_git_free (goJoin path (nameN c)) c hp' hcc l hl
    · exact allowedChildren_git_free path rest hp hcr l hl
end

lemma memF_allowedChildren {c : FSNode} {cs : FSList} (hm : MemF c cs) :
    ∀ (path : String) (x : String), x ∈ allowedPaths (goJoin path (nameN c)) c →
      x ∈ allowedChildren path cs := by
  induction hm with
  | head t =>
    intro path x hx
    exact List.mem_append_left _ hx
  | tail hm ih =>
    intro path x hx
    exact List.mem_append_right _ (ih path x hx)

lemma dirAt_in_allowedPaths {n m : FSNode} {chain : List String} (hd : DirAt n chain m) :
    ∀ path : String, isDirN m = true → nameN n ≠ ".git" →
      (∀ x ∈ chain, x ≠ ".git") →
      joinChain path chain ∈ allowedPaths path n := by
  induction hd with
  | here n =>
    intro path hdir hname _
    cases n with
    | file nm => simp [isDirN] at hdir
    | dir nm rb cs =>
      simp only [allowedPaths]
      rw [if_neg (by exact hname)]
      exact List.mem_cons_self _ _
  | step hmem hdat ih =>
    intro path hdir hname hchain
    rename_i nm cs c m chain
    simp only [allowedPaths]
    rw [if_neg (by exact hname), if_pos trivial]
    apply List.mem_cons_of_mem
    have hjoin : joinChain path (nameN c :: chain) = joinChain (goJoin path (nameN c)) chain := rfl
    rw [hjoin]
    apply memF_allowedChildren hmem path
    exact ih (goJoin path (nameN c)) hdir
      (hchain (nameN c) (List.mem_cons_self _ _))
      (fun x hx => hchain x (List.mem_cons_of_mem _ hx))

/-- Claim C5: for every tree (with separator-free entry names, and a
base directory whose own components avoid ".git"), no snapshot body
line has a path component equal to ".git" -- the `.git` directory and
its whole subtree are skipped -- and this is the only name-based
exclusion: every directory reachable through readable, non-".git"
ancestors (hidden ones included) appears in the body. -/
theorem claim_C5 (baseDir : String) (n : FSNode)
    (hclean : cleanN n = true)
    (hbase : gitChars ∉ splitSlash baseDir.toList) :
    (∀ l ∈ (generateDatabase baseDir (some n)).1.drop 1,
      gitChars ∉ splitSlash l.toList) ∧
    (∀ (chain : List String) (m : FSNode), DirAt n chain m → isDirN m = true →
      nameN n ≠ ".git" → (∀ x ∈ chain, x ≠ ".git") →
      joinChain baseDir chain ∈ (generateDatabase baseDir (some n)).1.drop 1) := by
  have hgen : (generateDatabase baseDir (some n)).1.drop 1 = allowedPaths baseDir n := by
    rw [generateDatabase_some]
    rfl
  constructor
  · rw [hgen]
    exact allowedPaths_git_free baseDir n hbase hclean
  · intro chain m hd hdir hname hchain
    rw [hgen]
    exact dirAt_in_allowedPaths hd baseDir hdir hname hchain

/-- Claim C5, witnessed on the spec's own example: scanning a tree
containing `/a/.git/objects` yields no body line with a `.git`
component, while the hidden sibling `/a/.hidden` does appear. -/
theorem claim_C5_witness :
    (∀ l ∈ (generateDatabase "/a" (some gitExampleTree)).1.drop 1,
      gitChars ∉ splitSlash l.toList) ∧
    joinChain "/a" [".hidden"] ∈ (generateDatabase "/a" (some gitExampleTree)).1.drop 1 := by
  have h := claim_C5 "/a" gitExampleTree (by decide) (by decide)
  refine ⟨h.1, ?_⟩
  refine h.2 [".hidden"] (FSNode.dir ".hidden" true FSList.nil) ?_ rfl (by decide) (by decide)
  exact DirAt.step (MemF.tail (MemF.head _ _)) (DirAt.here _)
